import Mathlib

/-!
Shallow embedding of the connection-establishment layer of the
rust-websocket client: the address ranking / racing registry
(src/client/dns.rs) and the HTTP CONNECT proxy tunnel handshake
(src/client/tunnel.rs), together with theorems checking the
specification's claims against this embedding.

Machine integers (`i32`) are modelled as `Int` with explicit
two's-complement wrapping where the Rust arithmetic can overflow
(release-mode wrapping semantics).  IP addresses are modelled by their
numeric value (`Nat`): the `Ord` instances of `Ipv4Addr`/`IpAddr`
coincide with numeric ordering of that value.
-/

/-- 32-bit two's-complement wrap: the value of an `i32` arithmetic result
under Rust's release-mode overflow semantics. -/
def wrap32 (n : Int) : Int := (n + 2 ^ 31) % 2 ^ 32 - 2 ^ 31

/-- Wrapping `i32` addition. -/
def add32 (a b : Int) : Int := wrap32 (a + b)

/-- Wrapping `i32` multiplication. -/
def mul32 (a b : Int) : Int := wrap32 (a * b)

/-- `AddrSource` (dns.rs): origin of a candidate address.  Rust derives
`Ord`, which orders by declaration order. -/
inductive AddrSource
  | HttpDNS
  | LocalDNS
  | HardCodeIp
deriving DecidableEq

/-- Discriminant of `AddrSource`, realising the derived Rust `Ord`. -/
def AddrSource.toNat : AddrSource → Nat
  | .HttpDNS => 0
  | .LocalDNS => 1
  | .HardCodeIp => 2

/-- `SortedAddr` (dns.rs): one candidate IP for one domain.  Structural
(decidable) equality of this structure corresponds to the Rust derived
`PartialEq`/`Eq`, which compares all four fields. -/
structure SortedAddr where
  addr : Nat
  is_rto : Bool
  source : AddrSource
  connect_costs : List Int
deriving DecidableEq

/-- `SortedAddr::avg_cost` (dns.rs lines 65-72): `i32::MAX` sentinel when
no cost samples exist, otherwise the wrapped `i32` sum divided by the
sample count with Rust's truncating `i32` division. -/
def SortedAddr.avg_cost (s : SortedAddr) : Int :=
  if s.connect_costs.isEmpty then 2 ^ 31 - 1
  else Int.tdiv (s.connect_costs.foldl add32 0) (s.connect_costs.length : Int)

/-- `SortedAddr::has_been_used` (dns.rs lines 74-76). -/
def SortedAddr.has_been_used (s : SortedAddr) : Bool :=
  !s.connect_costs.isEmpty

/-- `SortedAddr::delay_time` (dns.rs lines 78-84). -/
def SortedAddr.delay_time (s : SortedAddr) : Int :=
  if s.connect_costs.isEmpty then 300
  else min 600 (add32 s.avg_cost 250)

/-- Rust `i32::cmp`. -/
def intCmp (a b : Int) : Ordering :=
  if a < b then .lt else if a = b then .eq else .gt

/-- Rust `u32`/`usize`-style `cmp` on the numeric value of an address. -/
def natCmp (a b : Nat) : Ordering :=
  if a < b then .lt else if a = b then .eq else .gt

/-- Rust `bool::cmp` (`false < true`). -/
def boolCmp (a b : Bool) : Ordering :=
  if a = b then .eq else if a then .gt else .lt

/-- `impl Ord for SortedAddr` (dns.rs lines 87-110): equal if the IPs are
equal; otherwise compare average cost, then `other.is_rto.cmp(&self.is_rto)`,
then the source ordinal, then the raw IP value. -/
def SortedAddr.cmp (s o : SortedAddr) : Ordering :=
  if s.addr = o.addr then .eq
  else if s.avg_cost ≠ o.avg_cost then intCmp s.avg_cost o.avg_cost
  else if s.is_rto ≠ o.is_rto then boolCmp o.is_rto s.is_rto
  else if s.source ≠ o.source then natCmp s.source.toNat o.source.toNat
  else natCmp s.addr o.addr

/-- The cost-history mutation inside `update_domain_sorted_addr_cost`
(dns.rs lines 208-211): push the new sample, then drop the oldest sample
when the length exceeds 3 (`Vec::remove(0)`). -/
def push_cost (cs : List Int) (c : Int) : List Int :=
  let l := cs ++ [c]
  if 3 < l.length then l.drop 1 else l

/-- A domain's `BTreeSet<SortedAddr>` is modelled as a list kept in
(strictly) increasing `SortedAddr.cmp` order.  `BTreeSet::insert`: walk
the ordered elements; place the new element before the first strictly
greater one; if an element comparing `Equal` is found, the set keeps the
existing element and discards the new one (Rust `insert` does not
replace). -/
def btInsert (l : List SortedAddr) (x : SortedAddr) : List SortedAddr :=
  match l with
  | [] => [x]
  | y :: ys =>
    match SortedAddr.cmp x y with
    | .lt => x :: y :: ys
    | .eq => y :: ys
    | .gt => y :: btInsert ys x

/-- `BTreeSet::take(&x)`: remove and return the element comparing
`Equal` to the probe, if any.  Comparator equality holds exactly on
equal IPs, so this finds the (first) element with the probe's IP. -/
def btTake (l : List SortedAddr) (x : SortedAddr) :
    Option SortedAddr × List SortedAddr :=
  match l with
  | [] => (none, [])
  | y :: ys =>
    if SortedAddr.cmp x y = .eq then (some y, ys)
    else
      let r := btTake ys x
      (r.1, y :: r.2)

/-- `HashSet::take(&x)` on the removed-by-source snapshot
(dns.rs line 157): the `SortedAddr` `Hash` impl hashes only the IP, but
`take` confirms the hit with the derived `Eq`, i.e. full structural
equality of all four fields. -/
def hsTake (l : List SortedAddr) (x : SortedAddr) :
    Option SortedAddr × List SortedAddr :=
  match l with
  | [] => (none, [])
  | y :: ys =>
    if y = x then (some y, ys)
    else
      let r := hsTake ys x
      (r.1, y :: r.2)

/-- The candidate loop of `insert_domain_sorted_addrs`
(dns.rs lines 156-170): for each candidate, first try to recover the
structurally equal entry from the removed-by-source snapshot; otherwise
take any same-IP entry still in the registry, OR the candidate's
`is_rto` into it, and re-insert; otherwise insert the candidate fresh. -/
def insertLoop (old entry : List SortedAddr) :
    List SortedAddr → List SortedAddr
  | [] => entry
  | c :: cs =>
    match hsTake old c with
    | (some oldAddr, old') => insertLoop old' (btInsert entry oldAddr) cs
    | (none, _) =>
      match btTake entry c with
      | (some oldEntry, rest) =>
        insertLoop old
          (btInsert rest { oldEntry with is_rto := oldEntry.is_rto || c.is_rto }) cs
      | (none, _) => insertLoop old (btInsert entry c) cs

/-- `insert_domain_sorted_addrs` (dns.rs lines 150-173) acting on one
domain's set: split off the entries contributed by `source`
(`remove_old_domain_sorted_addrs`, lines 128-147), then run the
candidate merge loop on the remainder. -/
def insertDomainSortedAddrs (set : List SortedAddr)
    (sorted_addrs : List SortedAddr) (source : AddrSource) : List SortedAddr :=
  insertLoop (set.filter (fun a => a.source == source))
    (set.filter (fun a => !(a.source == source))) sorted_addrs

/-- `update_domain_sorted_addr_cost` (dns.rs lines 176-215) acting on one
domain's set: find the entry with the given IP (no-op when absent), take
it out of the ordered set, push the cost sample (evicting the oldest
beyond 3), and re-insert. -/
def updateDomainSortedAddrCost (set : List SortedAddr) (addr : Nat)
    (cost_ms : Int) : List SortedAddr :=
  match set.find? (fun a => a.addr == addr) with
  | none => set
  | some sorted_addr =>
    match btTake set sorted_addr with
    | (none, _) => set
    | (some a, rest) =>
      btInsert rest { a with connect_costs := push_cost a.connect_costs cost_ms }

/-- One call against a fixed domain's registry: the two mutating
operations the registry supports. -/
inductive DnsOp
  | insert (cands : List SortedAddr) (src : AddrSource)
  | update (addr : Nat) (cost_ms : Int)

/-- Apply one registry operation to a domain's set. -/
def applyDnsOp (set : List SortedAddr) : DnsOp → List SortedAddr
  | .insert cands src => insertDomainSortedAddrs set cands src
  | .update addr cost => updateDomainSortedAddrCost set addr cost

/-- Apply a sequence of registry operations, oldest first. -/
def applyDnsOps (set : List SortedAddr) (ops : List DnsOp) : List SortedAddr :=
  ops.foldl applyDnsOp set

/-- `SocketAddr`: an IP (numeric value) together with a port. -/
structure SockAddr where
  ip : Nat
  port : Nat
deriving DecidableEq

/-- `SocketAddrWithDelayTime` (dns.rs lines 217-221). -/
structure AddrDelay where
  addr : SockAddr
  delay_time : Int
deriving DecidableEq

/-- `SocketAddrWithDelayTime::from_sorted_addr` (dns.rs lines 224-229). -/
def fromSortedAddr (a : SortedAddr) (port : Nat) : AddrDelay :=
  AddrDelay.mk (SockAddr.mk a.addr port) a.delay_time

/-- The nested `has_selected` helper of `get_sorted_addrs`
(dns.rs lines 270-277): compares only the IP of each slate entry. -/
def hasSelected (slate : List AddrDelay) (a : SortedAddr) : Bool :=
  slate.any (fun s => s.addr.ip == a.addr)

/-- The slate-selection phase of `get_sorted_addrs` (dns.rs lines
258-282): the best-ranked entry; the second best (or a copy of the
first); the first never-used entry whose IP is not already selected (or
a copy of the first slot). -/
def selectSlate (set : List SortedAddr) (port : Nat) : List AddrDelay :=
  match set with
  | [] => []
  | fastest :: rest =>
    let slot0 := fromSortedAddr fastest port
    let slot1 :=
      match rest with
      | second :: _ => fromSortedAddr second port
      | [] => slot0
    let slot2 :=
      match set.find? (fun a => !a.has_been_used && !hasSelected [slot0, slot1] a) with
      | some a => fromSortedAddr a port
      | none => slot0
    [slot0, slot1, slot2]

/-- The preferred-address phase of `get_sorted_addrs` (dns.rs lines
284-295): if no slate entry has the first address (full `SocketAddr`
equality), insert it at the front and pop the last entry. -/
def ensureFirstAddr (slate : List AddrDelay) (first : AddrDelay) :
    List AddrDelay :=
  if slate.any (fun s => s.addr == first.addr) then slate
  else (first :: slate).dropLast

/-- The nested `get_delay_time` helper (dns.rs lines 297-300):
`min(max, max(min, d))`. -/
def clampDelay (d lo hi : Int) : Int := min hi (max lo d)

/-- The delay-assignment phase of `get_sorted_addrs` (dns.rs lines
302-310): slot 0 gets delay 0; slot `i ≥ 1` gets
`clamp(delay * i, 300 * i, 600 * i)` in `i32` arithmetic. -/
def assignDelays (slate : List AddrDelay) : List AddrDelay :=
  slate.enum.map fun p =>
    if p.1 = 0 then { p.2 with delay_time := 0 }
    else
      { p.2 with
        delay_time :=
          clampDelay (mul32 p.2.delay_time (p.1 : Int)) (300 * (p.1 : Int))
            (600 * (p.1 : Int)) }

/-- `get_sorted_addrs` (dns.rs lines 240-314) acting on one domain's
set (an absent domain behaves like an empty set). -/
def getSortedAddrs (set : List SortedAddr) (is_complex_conn : Bool)
    (first_addr : SockAddr) : List AddrDelay :=
  let port := first_addr.port
  let first := AddrDelay.mk first_addr 0
  if !is_complex_conn then [first]
  else if set.isEmpty then [first]
  else assignDelays (ensureFirstAddr (selectSlate set port) first)

/-! ## Proxy tunnel (src/client/tunnel.rs)

The response bytes are modelled as `List Nat` (byte values); the
protocol literals are ASCII, so `Char.toNat` of the Rust source strings
gives exactly their bytes. -/

/-- Byte sequence of an ASCII string literal. -/
def asciiBytes (s : String) : List Nat := s.data.map Char.toNat

/-- Outcome of one `poll` iteration of the tunnel future in the
`Reading` state. -/
inductive TunnelPoll
  | success
  | authRequired
  | unsuccessful
  | eof
  | pending
deriving DecidableEq

/-- One `Reading`-state loop iteration of `impl Future for Tunnel::poll`
(tunnel.rs lines 69-93): `buf` is the accumulated response including the
`n` bytes just read.  A zero-byte read fails with unexpected-EOF; once
more than 12 bytes accumulated, the literal prefixes `HTTP/1.1 200` /
`HTTP/1.0 200` (finalised by a trailing `\r\n\r\n`), `HTTP/1.1 407`, or
anything else classify the response; otherwise keep reading. -/
def readPoll (buf : List Nat) (n : Nat) : TunnelPoll :=
  if n = 0 then .eof
  else if 12 < buf.length then
    if (asciiBytes "HTTP/1.1 200").isPrefixOf buf
        || (asciiBytes "HTTP/1.0 200").isPrefixOf buf then
      if (asciiBytes "\r\n\r\n").isSuffixOf buf then .success else .pending
    else if (asciiBytes "HTTP/1.1 407").isPrefixOf buf then .authRequired
    else .unsuccessful
  else .pending

/-- `TunnelState` (tunnel.rs lines 47-50). -/
inductive TunnelState
  | Writing
  | Reading
deriving DecidableEq

/-- The `Tunnel` state machine's construction-visible state: the write
buffer (as the characters of the request, whose UTF-8 bytes are the
buffer contents) and the state tag.  The stream itself is opaque. -/
structure TunnelSt where
  buf : List Char
  state : TunnelState
deriving DecidableEq

/-- The `tunnel` constructor (tunnel.rs lines 21-39): `format!` builds
`"CONNECT {host}:{port} HTTP/1.1\r\nHost: {host}:{port}\r\n"` (the
backslash line continuations strip the indentation), then
`extend_from_slice(b"\r\n")` appends the header terminator; the state
starts as `Writing`. -/
def tunnelMk (host : String) (port : Nat) : TunnelSt :=
  TunnelSt.mk
    (("CONNECT " ++ host ++ ":" ++ toString port ++ " HTTP/1.1\r\nHost: "
        ++ host ++ ":" ++ toString port ++ "\r\n").data
      ++ ("\r\n").data)
    .Writing

/-! ## URL fragment hint and override store (dns.rs lines 112-126 and 331-411) -/

/-- Rust `str::split(sep)` on characters: splits into the (possibly
empty) runs between separator occurrences. -/
def splitChar (sep : Char) : List Char → List (List Char)
  | [] => [[]]
  | c :: cs =>
    if c = sep then [] :: splitChar sep cs
    else
      match splitChar sep cs with
      | [] => [[c]]
      | g :: gs => (c :: g) :: gs

/-- One dotted-quad octet under Rust's `Ipv4Addr: FromStr` grammar: only
ASCII digits, at least one digit, no leading zero (unless the octet is
exactly `0`), value at most 255. -/
def octVal (s : List Char) : Option Nat :=
  if !(s.all Char.isDigit) then none
  else
    match s with
    | [] => none
    | ['0'] => some 0
    | '0' :: _ :: _ => none
    | _ =>
      let v := s.foldl (fun a c => a * 10 + (c.toNat - 48)) 0
      if 255 < v then none else some v

/-- Rust `"a.b.c.d".parse::<Ipv4Addr>()`: exactly four octets separated
by `.`, returning the numeric (big-endian) 32-bit value. -/
def parseIpv4 (s : List Char) : Option Nat :=
  match splitChar '.' s with
  | [p0, p1, p2, p3] =>
    match octVal p0, octVal p1, octVal p2, octVal p3 with
    | some a, some b, some c, some d =>
      some (((a * 256 + b) * 256 + c) * 256 + d)
    | _, _, _, _ => none
  | _ => none

/-- `IP_FRAGMENT_PREFIX` (dns.rs line 12): the fixed fragment marker
`"430BB5C318_ip:"`. -/
def ipFragTag : List Char := "430BB5C318_ip:".data

/-- The two `Url` accessors `get_addrs_by_url` consults. -/
structure UrlView where
  scheme : String
  fragment : Option String

/-- `get_addr_by_ip` (dns.rs lines 399-411): parse an IPv4 literal and
pair it with the port; `None` on parse failure. -/
def getAddrByIp (ip : List Char) (port : Nat) : Option SockAddr :=
  match parseIpv4 ip with
  | some addr => some (SockAddr.mk addr port)
  | none => none

/-- `get_addrs_by_url` (dns.rs lines 383-396): require a fragment
starting with the fixed marker, take colon-delimited field 1 as the IP
text, choose port 80 for scheme `ws` and 443 otherwise. -/
def getAddrsByUrl (url : UrlView) : Option SockAddr :=
  match url.fragment with
  | none => none
  | some fragment =>
    if !(ipFragTag.isPrefixOf fragment.data) then none
    else
      match (splitChar ':' fragment.data)[1]? with
      | none => none
      | some ip =>
        let port : Nat := if url.scheme = "ws" then 80 else 443
        getAddrByIp ip port

/-- The override store `CUSTOM_DOMAIN2ADDR`, modelled as the map it
represents. -/
def CustomStore : Type := String → Option SockAddr

/-- `set_custom_addr` (dns.rs lines 332-340): parse the text as IPv4;
on success store it under the domain with fixed port 443; malformed
input leaves the store untouched. -/
def setCustomAddr (store : CustomStore) (domain : String)
    (addr : String) : CustomStore :=
  match parseIpv4 addr.data with
  | some ip => fun d => if d = domain then some (SockAddr.mk ip 443) else store d
  | none => store

/-- `try_get_custom_addr` (dns.rs lines 343-351). -/
def tryGetCustomAddr (store : CustomStore) (domain : String) :
    Option SockAddr :=
  store domain

/-- `remove_custom_addr` (dns.rs lines 354-358). -/
def removeCustomAddr (store : CustomStore) (domain : String) : CustomStore :=
  fun d => if d = domain then none else store d

/-! ## Order-theoretic facts about `SortedAddr.cmp` -/

theorem intCmp_eq_lt {a b : Int} : intCmp a b = .lt ↔ a < b := by
  unfold intCmp
  split_ifs <;> simp_all <;> omega

theorem intCmp_eq_eq {a b : Int} : intCmp a b = .eq ↔ a = b := by
  unfold intCmp
  split_ifs <;> simp_all <;> omega

theorem intCmp_eq_gt {a b : Int} : intCmp a b = .gt ↔ b < a := by
  unfold intCmp
  split_ifs <;> simp_all <;> omega

theorem natCmp_eq_lt {a b : Nat} : natCmp a b = .lt ↔ a < b := by
  unfold natCmp
  split_ifs <;> simp_all

theorem natCmp_eq_eq {a b : Nat} : natCmp a b = .eq ↔ a = b := by
  unfold natCmp
  split_ifs <;> simp_all <;> omega

theorem natCmp_eq_gt {a b : Nat} : natCmp a b = .gt ↔ b < a := by
  unfold natCmp
  split_ifs <;> simp_all <;> omega

theorem AddrSource.toNat_inj {a b : AddrSource} : a.toNat = b.toNat ↔ a = b := by
  cases a <;> cases b <;> decide

/-- Rank used by the `is_rto` tie-break: a flagged candidate orders first. -/
def rtoRank (b : Bool) : Nat := if b then 0 else 1

/-- The strict lexicographic order on the comparison key
`(avg_cost, rtoRank is_rto, source ordinal, addr)` that
`SortedAddr.cmp` implements between distinct IPs. -/
def keyLt (x y : SortedAddr) : Prop :=
  x.avg_cost < y.avg_cost ∨
    (x.avg_cost = y.avg_cost ∧
      (rtoRank x.is_rto < rtoRank y.is_rto ∨
        (rtoRank x.is_rto = rtoRank y.is_rto ∧
          (x.source.toNat < y.source.toNat ∨
            (x.source.toNat = y.source.toNat ∧ x.addr < y.addr)))))

theorem saCmp_eq_iff {x y : SortedAddr} :
    SortedAddr.cmp x y = .eq ↔ x.addr = y.addr := by
  unfold SortedAddr.cmp
  have hs : x.source ≠ y.source → x.source.toNat ≠ y.source.toNat :=
    fun hne hn => hne (AddrSource.toNat_inj.mp hn)
  split_ifs with h1 h2 h3 h4
  · simp [h1]
  · simp [intCmp_eq_eq, h1, h2]
  · cases hx : x.is_rto <;> cases hy : y.is_rto <;> simp_all [boolCmp]
  · simp [natCmp_eq_eq, h1, hs h4]
  · simp [natCmp_eq_eq, h1]

theorem saCmp_lt_iff {x y : SortedAddr} (h : x.addr ≠ y.addr) :
    SortedAddr.cmp x y = .lt ↔ keyLt x y := by
  unfold SortedAddr.cmp keyLt
  rw [if_neg h]
  have hs : x.source ≠ y.source → x.source.toNat ≠ y.source.toNat :=
    fun hne hn => hne (AddrSource.toNat_inj.mp hn)
  split_ifs with h2 h3 h4
  · rw [intCmp_eq_lt]
    cases x.is_rto <;> cases y.is_rto <;> simp [rtoRank] <;> omega
  · rw [ne_eq, not_not] at h2
    cases hx : x.is_rto <;> cases hy : y.is_rto <;>
      simp_all [boolCmp, rtoRank] <;> omega
  · rw [ne_eq, not_not] at h2 h3
    have h4' := hs h4
    rw [natCmp_eq_lt]
    rw [h2, h3]
    omega
  · rw [ne_eq, not_not] at h2 h3 h4
    rw [natCmp_eq_lt, h2, h3, h4]
    omega

theorem saCmp_gt_iff {x y : SortedAddr} (h : x.addr ≠ y.addr) :
    SortedAddr.cmp x y = .gt ↔ keyLt y x := by
  unfold SortedAddr.cmp keyLt
  rw [if_neg h]
  have hs : x.source ≠ y.source → x.source.toNat ≠ y.source.toNat :=
    fun hne hn => hne (AddrSource.toNat_inj.mp hn)
  have haddr : y.addr ≠ x.addr := Ne.symm h
  split_ifs with h2 h3 h4
  · rw [intCmp_eq_gt]
    cases x.is_rto <;> cases y.is_rto <;> simp [rtoRank] <;> omega
  · rw [ne_eq, not_not] at h2
    cases hx : x.is_rto <;> cases hy : y.is_rto <;>
      simp_all [boolCmp, rtoRank] <;> omega
  · rw [ne_eq, not_not] at h2 h3
    have h4' := hs h4
    rw [natCmp_eq_gt, h2, h3]
    omega
  · rw [ne_eq, not_not] at h2 h3 h4
    rw [natCmp_eq_gt, h2, h3, h4]
    omega

theorem keyLt_trans {x y z : SortedAddr} (h1 : keyLt x y) (h2 : keyLt y z) :
    keyLt x z := by
  unfold keyLt at *
  omega

theorem keyLt_total {x y : SortedAddr} (h : x.addr ≠ y.addr) :
    keyLt x y ∨ keyLt y x := by
  unfold keyLt
  cases x.is_rto <;> cases y.is_rto <;> simp [rtoRank] <;> omega

theorem saCmp_lt_addr_ne {x y : SortedAddr} (h : SortedAddr.cmp x y = .lt) :
    x.addr ≠ y.addr := by
  intro hc
  have := saCmp_eq_iff.mpr hc
  rw [this] at h
  exact Ordering.noConfusion h

/-! ## The registry's ordered-set invariant -/

/-- The representation invariant of our `BTreeSet` model: the list is
strictly increasing in comparator order. -/
def BTSorted (l : List SortedAddr) : Prop :=
  l.Pairwise (fun a b => SortedAddr.cmp a b = .lt)

theorem btSorted_addr_ne {l : List SortedAddr} (h : BTSorted l) :
    l.Pairwise (fun a b => a.addr ≠ b.addr) :=
  h.imp fun hab => saCmp_lt_addr_ne hab

theorem btInsert_mem {l : List SortedAddr} {x z : SortedAddr}
    (h : z ∈ btInsert l x) : z = x ∨ z ∈ l := by
  induction l with
  | nil => simpa [btInsert] using h
  | cons y ys ih =>
    unfold btInsert at h
    rcases hc : SortedAddr.cmp x y with _ | _ | _ <;> rw [hc] at h
    · rcases List.mem_cons.mp h with h' | h'
      · exact .inl h'
      · exact .inr h'
    · exact .inr h
    · rcases List.mem_cons.mp h with h' | h'
      · exact .inr (h' ▸ List.mem_cons_self y ys)
      · rcases ih h' with h'' | h''
        · exact .inl h''
        · exact .inr (List.mem_cons_of_mem y h'')

theorem btInsert_sorted {l : List SortedAddr} {x : SortedAddr}
    (hs : BTSorted l) (hne : ∀ y ∈ l, x.addr ≠ y.addr) :
    BTSorted (btInsert l x) := by
  induction l with
  | nil => simp [btInsert, BTSorted]
  | cons y ys ih =>
    rw [BTSorted, List.pairwise_cons] at hs
    obtain ⟨hy, hys⟩ := hs
    have hxy : x.addr ≠ y.addr := hne y (.head _)
    unfold btInsert
    rcases hc : SortedAddr.cmp x y with _ | _ | _
    · rw [BTSorted, List.pairwise_cons]
      refine ⟨?_, List.pairwise_cons.mpr ⟨hy, hys⟩⟩

      intro z hz
      rcases List.mem_cons.mp hz with rfl | hz'
      · exact hc
      · have hxz : x.addr ≠ z.addr := hne z (List.mem_cons_of_mem y hz')
        have hyz := hy z hz'
        exact (saCmp_lt_iff hxz).mpr
          (keyLt_trans ((saCmp_lt_iff hxy).mp hc)
            ((saCmp_lt_iff (saCmp_lt_addr_ne hyz)).mp hyz))
    · exact absurd (saCmp_eq_iff.mp hc) hxy
    · rw [BTSorted, List.pairwise_cons]
      refine ⟨?_, ih hys fun z hz => hne z (List.mem_cons_of_mem y hz)⟩
      intro z hz
      rcases btInsert_mem hz with rfl | hz'
      · exact (saCmp_lt_iff (Ne.symm hxy)).mpr
          ((saCmp_gt_iff hxy).mp hc)
      · exact hy z hz'

theorem btTake_none {l : List SortedAddr} {x : SortedAddr}
    (h : (btTake l x).1 = none) :
    (btTake l x).2 = l ∧ ∀ y ∈ l, SortedAddr.cmp x y ≠ .eq := by
  induction l with
  | nil => simp [btTake]
  | cons y ys ih =>
    unfold btTake at h ⊢
    by_cases hc : SortedAddr.cmp x y = .eq
    · simp [hc] at h
    · simp only [if_neg hc] at h ⊢
      obtain ⟨h1, h2⟩ := ih h
      refine ⟨by rw [h1], ?_⟩
      intro z hz
      rcases List.mem_cons.mp hz with rfl | hz'
      · exact hc
      · exact h2 z hz'

theorem btTake_some {l : List SortedAddr} {x t : SortedAddr}
    (h : (btTake l x).1 = some t) :
    ∃ l₁ l₂, l = l₁ ++ t :: l₂ ∧ (btTake l x).2 = l₁ ++ l₂ ∧
      SortedAddr.cmp x t = .eq := by
  induction l with
  | nil => simp [btTake] at h
  | cons y ys ih =>
    unfold btTake at h ⊢
    by_cases hc : SortedAddr.cmp x y = .eq
    · simp only [if_pos hc] at h ⊢
      obtain rfl : y = t := by simpa using h
      exact ⟨[], ys, rfl, rfl, hc⟩
    · simp only [if_neg hc] at h ⊢
      obtain ⟨l₁, l₂, rfl, h2, h3⟩ := ih h
      exact ⟨y :: l₁, l₂, rfl, by simp [h2], h3⟩

theorem hsTake_some {l : List SortedAddr} {x t : SortedAddr}
    (h : (hsTake l x).1 = some t) : t = x ∧ t ∈ l := by
  induction l with
  | nil => simp [hsTake] at h
  | cons y ys ih =>
    unfold hsTake at h
    by_cases hc : y = x
    · simp only [if_pos hc] at h
      obtain rfl : y = t := by simpa using h
      exact ⟨hc, .head _⟩
    · simp only [if_neg hc] at h
      obtain ⟨h1, h2⟩ := ih h
      exact ⟨h1, List.mem_cons_of_mem y h2⟩

theorem hsTake_snd_subset {l : List SortedAddr} {x z : SortedAddr}
    (h : z ∈ (hsTake l x).2) : z ∈ l := by
  induction l with
  | nil => simpa [hsTake] using h
  | cons y ys ih =>
    unfold hsTake at h
    by_cases hc : y = x
    · simp only [if_pos hc] at h
      exact List.mem_cons_of_mem y h
    · simp only [if_neg hc] at h
      rcases List.mem_cons.mp h with rfl | h'
      · exact List.mem_cons_self z ys
      · exact List.mem_cons_of_mem y (ih h')

/-- Distinct-IP condition on the candidates of one insert call. -/
def DistinctAddrs (l : List SortedAddr) : Prop :=
  l.Pairwise (fun a b => a.addr ≠ b.addr)

theorem insertLoop_sorted :
    ∀ (cands old entry : List SortedAddr),
      DistinctAddrs cands →
      BTSorted entry →
      (∀ o ∈ old, ∀ c ∈ cands, o = c → ∀ e ∈ entry, e.addr ≠ c.addr) →
      BTSorted (insertLoop old entry cands) := by
  intro cands
  induction cands with
  | nil => intro old entry _ hs _; exact hs
  | cons c cs ih =>
    intro old entry hd hs hB
    rw [DistinctAddrs, List.pairwise_cons] at hd
    obtain ⟨hdc, hdcs⟩ := hd
    unfold insertLoop
    rcases hOld : hsTake old c with ⟨fst, old'⟩
    rcases fst with _ | oldAddr
    · rcases hEnt : btTake entry c with ⟨efst, rest⟩
      rcases efst with _ | t
      · -- candidate is new to the registry: insert it fresh
        have hnone := btTake_none (by rw [hEnt])
        rw [hEnt] at hnone
        have hne : ∀ y ∈ entry, c.addr ≠ y.addr := by
          intro y hy haddr
          exact hnone.2 y hy (saCmp_eq_iff.mpr haddr)
        refine ih old (btInsert entry c) hdcs (btInsert_sorted hs hne) ?_
        intro o ho c' hc' hoc e he
        rcases btInsert_mem he with rfl | he'
        · exact hdc c' hc'
        · exact hB o ho c' (List.mem_cons_of_mem c hc') hoc e he'
      · -- same-IP entry still present: merge is_rto and re-insert
        have hsome := btTake_some (show (btTake entry c).1 = some t by rw [hEnt])
        obtain ⟨l₁, l₂, hsplit, hrest, hceq⟩ := hsome
        rw [hEnt] at hrest
        simp only at hrest
        subst hrest
        have hta : t.addr = c.addr := (saCmp_eq_iff.mp hceq).symm
        have hsplit' := hs
        rw [BTSorted, hsplit, List.pairwise_append] at hsplit'
        obtain ⟨hp1, hp2, hp12⟩ := hsplit'
        rw [List.pairwise_cons] at hp2
        have hrest_sorted : BTSorted (l₁ ++ l₂) := by
          rw [BTSorted, List.pairwise_append]
          exact ⟨hp1, hp2.2, fun a ha b hb =>
            hp12 a ha b (List.mem_cons_of_mem t hb)⟩
        have hrest_ne :
            ∀ y ∈ l₁ ++ l₂, c.addr ≠ y.addr := by
          intro y hy haddr
          rcases List.mem_append.mp hy with hy1 | hy2
          · have := hp12 y hy1 t (List.mem_cons_self t l₂)
            exact saCmp_lt_addr_ne this (by rw [hta, haddr])
          · have := hp2.1 y hy2
            exact saCmp_lt_addr_ne this (by rw [hta, haddr])
        have hm : ({ t with is_rto := t.is_rto || c.is_rto } : SortedAddr).addr
            = c.addr := hta
        refine ih old _ hdcs
          (btInsert_sorted hrest_sorted (fun y hy => hm ▸ hrest_ne y hy)) ?_
        intro o ho c' hc' hoc e he
        rcases btInsert_mem he with rfl | he'
        · exact fun hn => hdc c' hc' (hm.symm.trans hn)
        · have hesub : e ∈ entry := by
            rw [hsplit]
            rcases List.mem_append.mp he' with h1 | h2
            · exact List.mem_append.mpr (.inl h1)
            · exact List.mem_append.mpr (.inr (List.mem_cons_of_mem t h2))
          exact hB o ho c' (List.mem_cons_of_mem c hc') hoc e hesub
    · -- candidate structurally equal to a removed old entry: re-insert it
      have hsome := hsTake_some (show (hsTake old c).1 = some oldAddr by rw [hOld])
      obtain ⟨rfl, hmem⟩ := hsome
      have hne : ∀ y ∈ entry, oldAddr.addr ≠ y.addr := by
        intro y hy
        exact fun hn => hB oldAddr hmem oldAddr (List.mem_cons_self _ _) rfl y hy hn.symm
      refine ih old' (btInsert entry oldAddr) hdcs (btInsert_sorted hs hne) ?_
      intro o ho c' hc' hoc e he
      have ho' : o ∈ old := by
        have : o ∈ (hsTake old oldAddr).2 := by rw [hOld]; exact ho
        exact hsTake_snd_subset this
      rcases btInsert_mem he with rfl | he'
      · exact hdc c' hc'
      · exact hB o ho' c' (List.mem_cons_of_mem _ hc') hoc e he'

theorem insertDomain_sorted {set cands : List SortedAddr} {src : AddrSource}
    (hs : BTSorted set) (hd : DistinctAddrs cands) :
    BTSorted (insertDomainSortedAddrs set cands src) := by
  unfold insertDomainSortedAddrs
  have hsub1 := List.filter_sublist (p := fun a => a.source == src) set
  have hsub2 := List.filter_sublist (p := fun a => !(a.source == src)) set
  refine insertLoop_sorted _ _ _ hd (List.Pairwise.sublist hsub2 hs) ?_
  intro o ho c hc hoc e he hne
  have hone : o ≠ e := by
    intro h
    have h1 := (List.mem_filter.mp ho).2
    have h2 := (List.mem_filter.mp he).2
    rw [h] at h1
    simp [h1] at h2
  have hpw : set.Pairwise (fun a b => a.addr ≠ b.addr) := btSorted_addr_ne hs
  have hsym : Symmetric (fun a b : SortedAddr => a.addr ≠ b.addr) :=
    fun a b hab => Ne.symm hab
  have := hpw.forall hsym (hsub1.subset ho) (hsub2.subset he) hone
  rw [hoc] at this
  exact this hne.symm

theorem updateDomain_sorted {set : List SortedAddr} {addr : Nat} {cost : Int}
    (hs : BTSorted set) :
    BTSorted (updateDomainSortedAddrCost set addr cost) := by
  rcases hf : set.find? (fun a => a.addr == addr) with _ | f
  · simp only [updateDomainSortedAddrCost, hf]
    exact hs
  · rcases hT : btTake set f with ⟨tfst, rest⟩
    rcases tfst with _ | a
    · simp only [updateDomainSortedAddrCost, hf, hT]
      exact hs
    · simp only [updateDomainSortedAddrCost, hf, hT]
      have hsome := btTake_some (show (btTake set f).1 = some a by rw [hT])
      obtain ⟨l₁, l₂, hsplit, hrest, hceq⟩ := hsome
      rw [hT] at hrest
      simp only at hrest
      subst hrest
      have hsplit' := hs
      rw [BTSorted, hsplit, List.pairwise_append] at hsplit'
      obtain ⟨hp1, hp2, hp12⟩ := hsplit'
      rw [List.pairwise_cons] at hp2
      have hrest_sorted : BTSorted (l₁ ++ l₂) := by
        rw [BTSorted, List.pairwise_append]
        exact ⟨hp1, hp2.2, fun x hx b hb =>
          hp12 x hx b (List.mem_cons_of_mem a hb)⟩
      have hrest_ne : ∀ y ∈ l₁ ++ l₂, a.addr ≠ y.addr := by
        intro y hy haddr
        rcases List.mem_append.mp hy with hy1 | hy2
        · exact saCmp_lt_addr_ne (hp12 y hy1 a (List.mem_cons_self a l₂)) haddr.symm
        · exact saCmp_lt_addr_ne (hp2.1 y hy2) haddr
      exact btInsert_sorted hrest_sorted hrest_ne

/-- Condition under which the registry invariant is preserved: each
insert call's candidate list mentions each IP at most once. -/
def DnsOpOk : DnsOp → Prop
  | .insert cands _ => DistinctAddrs cands
  | .update _ _ => True

theorem applyDnsOp_sorted {set : List SortedAddr} {op : DnsOp}
    (hs : BTSorted set) (hok : DnsOpOk op) : BTSorted (applyDnsOp set op) := by
  cases op with
  | insert cands src => exact insertDomain_sorted hs hok
  | update addr cost => exact updateDomain_sorted hs

theorem applyDnsOps_sorted {ops : List DnsOp} :
    ∀ {set : List SortedAddr}, BTSorted set → (∀ op ∈ ops, DnsOpOk op) →
      BTSorted (applyDnsOps set ops) := by
  induction ops with
  | nil => intro set hs _; exact hs
  | cons op ops ih =>
    intro set hs hok
    exact ih (applyDnsOp_sorted hs (hok op (List.mem_cons_self op ops)))
      fun o ho => hok o (List.mem_cons_of_mem op ho)

/-! ## Claim theorems -/

/-- C1: the claim says a same-source refresh whose candidate list has the
same IPs never resets an existing entry's `connect_costs`.  The code
violates this: the removed-by-source snapshot is probed with full
structural equality (`HashSet::take` uses the derived `Eq`), so an old
entry carrying cost history `[100]` does not match the fresh candidate
with empty history, and the fresh candidate replaces it — the history is
reset to `[]`. -/
theorem C1_same_source_refresh_resets_history :
    insertDomainSortedAddrs [SortedAddr.mk 1 false .HttpDNS [100]]
        [SortedAddr.mk 1 false .HttpDNS []] .HttpDNS
      = [SortedAddr.mk 1 false .HttpDNS []] := by decide

/-- C2 counterexample: `SortedAddr.cmp` does not obey the order axioms up
to the equal-IP equivalence classes.  With `x` and `y` sharing IP 1 (cost
histories `[10]` and `[30]`) and `z` at IP 2 (history `[20]`):
`x < z` and `z < y`, yet `x` and `y` compare equal — transitivity
through the equal-IP class fails. -/
theorem C2_total_order_counterexample :
    SortedAddr.cmp (SortedAddr.mk 1 false .HttpDNS [10])
        (SortedAddr.mk 2 false .HttpDNS [20]) = .lt
    ∧ SortedAddr.cmp (SortedAddr.mk 2 false .HttpDNS [20])
        (SortedAddr.mk 1 false .HttpDNS [30]) = .lt
    ∧ SortedAddr.cmp (SortedAddr.mk 1 false .HttpDNS [10])
        (SortedAddr.mk 1 false .HttpDNS [30]) = .eq
    ∧ SortedAddr.cmp (SortedAddr.mk 1 false .HttpDNS [10])
        (SortedAddr.mk 1 false .HttpDNS [30]) ≠ .lt := by
  refine ⟨by decide, by decide, by decide, by decide⟩

/-- C2 (amended): the comparison is total, equal-IP values always compare
equal whatever their other fields, distinct-IP values compare strictly
(exactly one of `<`/`>`), the comparison is antisymmetric, the tie-break
chain is average cost, then `is_rto = true` first, then the lower
`AddrSource` ordinal, then the raw IP; and it is transitive on values
with pairwise distinct IPs — but (per the counterexample) not across
equal-IP equivalence classes. -/
theorem C2_cmp_order_amended (x y z : SortedAddr) :
    (x.addr = y.addr → SortedAddr.cmp x y = .eq)
    ∧ (x.addr ≠ y.addr →
        (SortedAddr.cmp x y = .lt ∨ SortedAddr.cmp x y = .gt)
          ∧ SortedAddr.cmp x y ≠ .eq)
    ∧ (SortedAddr.cmp x y = .lt ↔ SortedAddr.cmp y x = .gt)
    ∧ (x.addr ≠ y.addr → x.avg_cost = y.avg_cost →
        x.is_rto = true → y.is_rto = false → SortedAddr.cmp x y = .lt)
    ∧ (x.addr ≠ y.addr → x.avg_cost = y.avg_cost → x.is_rto = y.is_rto →
        x.source.toNat < y.source.toNat → SortedAddr.cmp x y = .lt)
    ∧ (x.addr ≠ y.addr → x.avg_cost = y.avg_cost → x.is_rto = y.is_rto →
        x.source = y.source → x.addr < y.addr → SortedAddr.cmp x y = .lt)
    ∧ (x.addr ≠ y.addr → y.addr ≠ z.addr → x.addr ≠ z.addr →
        SortedAddr.cmp x y = .lt → SortedAddr.cmp y z = .lt →
        SortedAddr.cmp x z = .lt) := by
  refine ⟨?_, ?_, ?_, ?_, ?_, ?_, ?_⟩
  · intro h
    exact saCmp_eq_iff.mpr h
  · intro h
    have hne : SortedAddr.cmp x y ≠ .eq := fun hc => h (saCmp_eq_iff.mp hc)
    rcases hc : SortedAddr.cmp x y with _ | _ | _
    · exact ⟨.inl rfl, by simp⟩
    · exact absurd hc hne
    · exact ⟨.inr rfl, by simp⟩
  · by_cases h : x.addr = y.addr
    · have h1 := saCmp_eq_iff.mpr h
      have h2 := saCmp_eq_iff.mpr h.symm
      rw [h1, h2]
      simp
    · rw [saCmp_lt_iff h, saCmp_gt_iff (Ne.symm h)]
  · intro h havg hx hy
    rw [saCmp_lt_iff h]
    unfold keyLt rtoRank
    rw [hx, hy]
    simp [havg]
  · intro h havg hrto hsrc
    rw [saCmp_lt_iff h]
    unfold keyLt
    rw [hrto]
    exact .inr ⟨havg, .inr ⟨rfl, .inl hsrc⟩⟩
  · intro h havg hrto hsrc haddr
    rw [saCmp_lt_iff h]
    unfold keyLt
    rw [hrto, hsrc]
    exact .inr ⟨havg, .inr ⟨rfl, .inr ⟨rfl, haddr⟩⟩⟩
  · intro hxy hyz hxz h1 h2
    exact (saCmp_lt_iff hxz).mpr
      (keyLt_trans ((saCmp_lt_iff hxy).mp h1) ((saCmp_lt_iff hyz).mp h2))

/-- C2 witness: the amended theorem applied at a concrete pair of
untried `HttpDNS` candidates with IPs 1 < 2, whose tie-break falls
through to the raw IP. -/
theorem C2_cmp_order_amended_witness :
    SortedAddr.cmp (SortedAddr.mk 1 false .HttpDNS [])
      (SortedAddr.mk 2 false .HttpDNS []) = .lt :=
  (C2_cmp_order_amended (SortedAddr.mk 1 false .HttpDNS [])
      (SortedAddr.mk 2 false .HttpDNS [])
      (SortedAddr.mk 1 false .HttpDNS [])).2.2.2.2.2.1
    (by decide) (by decide) (by decide) (by decide) (by decide)

/-- C10 counterexample: duplicate IPs are reachable.  Starting from an
empty registry: insert IP 1 from HttpDNS, IP 3 from LocalDNS, record
costs 100 and 300 for them, then refresh HttpDNS with two candidates at
IP 1 — one fresh (empty history) and one structurally equal to the old
entry.  The fresh candidate is inserted first; the recovered old entry
(average cost 100) then sorts in front of the LocalDNS entry and the
`BTreeSet` walk never reaches the same-IP element, leaving IPs
`[1, 3, 1]` in the set. -/
theorem C10_unique_ip_counterexample :
    (applyDnsOps []
        [ .insert [SortedAddr.mk 1 false .HttpDNS []] .HttpDNS
        , .insert [SortedAddr.mk 3 false .LocalDNS []] .LocalDNS
        , .update 1 100
        , .update 3 300
        , .insert [SortedAddr.mk 1 false .HttpDNS [],
            SortedAddr.mk 1 false .HttpDNS [100]] .HttpDNS
        ]).map SortedAddr.addr = [1, 3, 1]
    ∧ ¬ (applyDnsOps []
        [ .insert [SortedAddr.mk 1 false .HttpDNS []] .HttpDNS
        , .insert [SortedAddr.mk 3 false .LocalDNS []] .LocalDNS
        , .update 1 100
        , .update 3 300
        , .insert [SortedAddr.mk 1 false .HttpDNS [],
            SortedAddr.mk 1 false .HttpDNS [100]] .HttpDNS
        ]).Pairwise (fun a b => a.addr ≠ b.addr) := by
  refine ⟨by decide, by decide⟩

/-- C10 (amended): starting from an empty registry, any sequence of
`insert_domain_sorted_addrs` and `update_domain_sorted_addr_cost` calls
in which every insert call's candidate list mentions each IP at most
once leaves the domain's ordered set with at most one entry per IP. -/
theorem C10_unique_ip_amended (ops : List DnsOp)
    (hok : ∀ op ∈ ops, DnsOpOk op) :
    (applyDnsOps [] ops).Pairwise (fun a b => a.addr ≠ b.addr) :=
  btSorted_addr_ne (applyDnsOps_sorted List.Pairwise.nil hok)

/-- C10 witness: the amended theorem applied to a concrete operation
sequence (two inserts with distinct-IP candidate lists and one cost
update). -/
theorem C10_unique_ip_amended_witness :
    (applyDnsOps []
        [ .insert [SortedAddr.mk 1 false .HttpDNS [],
            SortedAddr.mk 2 false .HttpDNS []] .HttpDNS
        , .insert [SortedAddr.mk 2 true .LocalDNS []] .LocalDNS
        , .update 1 100
        ]).Pairwise (fun a b => a.addr ≠ b.addr) :=
  C10_unique_ip_amended
    [ .insert [SortedAddr.mk 1 false .HttpDNS [],
        SortedAddr.mk 2 false .HttpDNS []] .HttpDNS
    , .insert [SortedAddr.mk 2 true .LocalDNS []] .LocalDNS
    , .update 1 100
    ]
    (by
      intro op hop
      fin_cases hop <;> simp [DnsOpOk, DistinctAddrs] <;> decide)

theorem push_cost_of_lt {cs : List Int} {a : Int} (h : cs.length < 3) :
    push_cost cs a = cs ++ [a] := by
  unfold push_cost
  simp
  omega

theorem push_cost_of_eq {cs : List Int} {a : Int} (h : cs.length = 3) :
    push_cost cs a = (cs ++ [a]).drop 1 := by
  unfold push_cost
  simp [h]

theorem foldl_push_cost (s : List Int) :
    ∀ cs : List Int, cs.length ≤ 3 →
      s.foldl push_cost cs = (cs ++ s).drop (cs.length + s.length - 3) := by
  induction s with
  | nil =>
    intro cs h
    simp [Nat.sub_eq_zero_of_le h]
  | cons a t ih =>
    intro cs h
    rw [List.foldl_cons]
    rcases Nat.lt_or_ge cs.length 3 with hlt | hge
    · rw [push_cost_of_lt hlt, ih (cs ++ [a]) (by simp; omega)]
      simp [List.append_assoc]
      congr 1
      omega
    · have h3 : cs.length = 3 := le_antisymm h hge
      rw [push_cost_of_eq h3, ih ((cs ++ [a]).drop 1) (by simp [h3])]
      rw [← List.drop_append_of_le_length (by simp)]
      rw [List.drop_drop]
      simp [List.append_assoc, h3]
      congr 1
      omega

theorem update_singleton (ip : Nat) (b : Bool) (src : AddrSource)
    (cs : List Int) (c : Int) :
    updateDomainSortedAddrCost [SortedAddr.mk ip b src cs] ip c
      = [SortedAddr.mk ip b src (push_cost cs c)] := by
  unfold updateDomainSortedAddrCost
  simp [List.find?, btTake, SortedAddr.cmp, btInsert]

theorem foldl_update_singleton (ip : Nat) (b : Bool) (src : AddrSource)
    (s : List Int) :
    ∀ cs : List Int,
      s.foldl (fun st c => updateDomainSortedAddrCost st ip c)
          [SortedAddr.mk ip b src cs]
        = [SortedAddr.mk ip b src (s.foldl push_cost cs)] := by
  induction s with
  | nil => intro cs; rfl
  | cons a t ih =>
    intro cs
    rw [List.foldl_cons, update_singleton, ih, List.foldl_cons]

/-- C3: for every sequence of `update_domain_sorted_addr_cost` calls on
one tracked address, the entry's `connect_costs` is always the suffix of
the most recent at most 3 samples in arrival order (oldest evicted
first); recording 100, 200, 300, 400 leaves `connect_costs =
[200, 300, 400]`, `avg_cost = 300` and `delay_time = 550`. -/
theorem C3_cost_window (ip : Nat) (b : Bool) (src : AddrSource)
    (samples : List Int) :
    samples.foldl (fun st c => updateDomainSortedAddrCost st ip c)
        [SortedAddr.mk ip b src []]
      = [SortedAddr.mk ip b src (samples.drop (samples.length - 3))]
    ∧ (samples.drop (samples.length - 3)).length ≤ 3
    ∧ List.foldl push_cost [] [100, 200, 300, 400] = [200, 300, 400]
    ∧ (SortedAddr.mk ip b src [200, 300, 400]).avg_cost = 300
    ∧ (SortedAddr.mk ip b src [200, 300, 400]).delay_time = 550 := by
  refine ⟨?_, ?_, by decide,
    by simp only [SortedAddr.avg_cost]; decide,
    by simp only [SortedAddr.delay_time, SortedAddr.avg_cost]; decide⟩
  · rw [foldl_update_singleton, foldl_push_cost samples [] (by simp)]
    simp
  · simp
    omega

/-! ## Numeric range facts for `avg_cost` (C7) -/

theorem wrap32_bounds (n : Int) : -2 ^ 31 ≤ wrap32 n ∧ wrap32 n < 2 ^ 31 := by
  unfold wrap32
  have h1 : ((2 : Int) ^ 32) = 4294967296 := by norm_num
  have h2 : ((2 : Int) ^ 31) = 2147483648 := by norm_num
  rw [h1, h2]
  omega

theorem wrap32_id {n : Int} (h1 : -2 ^ 31 ≤ n) (h2 : n < 2 ^ 31) :
    wrap32 n = n := by
  unfold wrap32
  have e1 : ((2 : Int) ^ 32) = 4294967296 := by norm_num
  have e2 : ((2 : Int) ^ 31) = 2147483648 := by norm_num
  rw [e1, e2]
  rw [e2] at h1 h2
  omega

theorem foldl_add32_bounds (t : List Int) :
    ∀ a : Int, -2 ^ 31 ≤ a → a < 2 ^ 31 →
      -2 ^ 31 ≤ t.foldl add32 a ∧ t.foldl add32 a < 2 ^ 31 := by
  induction t with
  | nil => intro a h1 h2; exact ⟨h1, h2⟩
  | cons c cs ih =>
    intro a _ _
    rw [List.foldl_cons]
    exact ih (add32 a c) (wrap32_bounds _).1 (wrap32_bounds _).2

theorem tdiv_lt_max {S : Int} (hl : -2 ^ 31 ≤ S) (hu : S < 2 ^ 31)
    {n : Int} (hn : n = 2 ∨ n = 3) : Int.tdiv S n < 2 ^ 31 - 1 := by
  have e : ((2 : Int) ^ 31) = 2147483648 := by norm_num
  rw [e] at hl hu
  rw [e]
  have hn0 : (0 : Int) ≤ n := by rcases hn with rfl | rfl <;> norm_num
  rcases le_or_lt 0 S with hS | hS
  · rw [Int.tdiv_eq_ediv hS hn0]
    rcases hn with rfl | rfl
    · have h1 : S / 2 ≤ 2147483647 / 2 := Int.ediv_le_ediv (by norm_num) (by omega)
      have h2 : (2147483647 : Int) / 2 = 1073741823 := by decide
      omega
    · have h1 : S / 3 ≤ 2147483647 / 3 := Int.ediv_le_ediv (by norm_num) (by omega)
      have h2 : (2147483647 : Int) / 3 = 715827882 := by decide
      omega
  · have hneg := Int.neg_tdiv S n
    have hpos : 0 ≤ Int.tdiv (-S) n := Int.tdiv_nonneg (by omega) hn0
    omega

/-- C7: `avg_cost` of an entry with no samples is the `i32::MAX`
sentinel, and the sentinel strictly exceeds `avg_cost` of every entry
holding 1 to 3 samples whose values are at most the sentinel minus the
sample bound 3 (and are `i32` values, hence at least `i32::MIN`). -/
theorem C7_avg_cost_sentinel (s : SortedAddr)
    (hlen1 : 1 ≤ s.connect_costs.length)
    (hlen3 : s.connect_costs.length ≤ 3)
    (hbound : ∀ c ∈ s.connect_costs, -2 ^ 31 ≤ c ∧ c ≤ 2 ^ 31 - 1 - 3) :
    (∀ t : SortedAddr, t.connect_costs = [] → t.avg_cost = 2 ^ 31 - 1)
    ∧ s.avg_cost < 2 ^ 31 - 1 := by
  constructor
  · intro t ht
    unfold SortedAddr.avg_cost
    rw [ht]
    rfl
  · unfold SortedAddr.avg_cost
    have hne : ¬s.connect_costs.isEmpty = true := by
      cases hc : s.connect_costs
      · rw [hc] at hlen1; simp at hlen1
      · simp [hc]
    rw [if_neg hne]
    have hsum := by
      refine foldl_add32_bounds s.connect_costs 0 ?_ ?_ <;> norm_num
    rcases Nat.lt_or_ge s.connect_costs.length 2 with hsmall | hbig
    · -- exactly one sample: the sum is the sample itself
      have h1 : s.connect_costs.length = 1 := by omega
      obtain ⟨a, ha⟩ := List.length_eq_one.mp h1
      have hab := hbound a (by rw [ha]; exact List.mem_cons_self a [])
      rw [ha]
      simp only [List.foldl_cons, List.foldl_nil, List.length_cons,
        List.length_nil]
      have : add32 0 a = a := by
        unfold add32
        rw [zero_add]
        exact wrap32_id hab.1 (by omega)
      rw [this]
      norm_num
      omega
    · have hn : (s.connect_costs.length : Int) = 2 ∨
          (s.connect_costs.length : Int) = 3 := by
        have : s.connect_costs.length = 2 ∨ s.connect_costs.length = 3 := by
          omega
        rcases this with h | h <;> rw [h] <;> norm_num
      exact tdiv_lt_max hsum.1 hsum.2 hn

/-- C7 witness: the theorem applied to an entry with a single sample
100. -/
theorem C7_avg_cost_sentinel_witness :
    (SortedAddr.mk 1 false .HttpDNS [100]).avg_cost < 2 ^ 31 - 1 :=
  (C7_avg_cost_sentinel (SortedAddr.mk 1 false .HttpDNS [100])
    (by decide) (by decide) (by decide)).2

theorem selectSlate_length {set : List SortedAddr} {port : Nat}
    (h : set ≠ []) : (selectSlate set port).length = 3 := by
  cases set with
  | nil => exact absurd rfl h
  | cons fastest rest => rfl

theorem selectSlate_from_set {set : List SortedAddr} {port : Nat} :
    ∀ q ∈ selectSlate set port, ∃ c ∈ set, q = fromSortedAddr c port := by
  intro q hq
  cases set with
  | nil => simp [selectSlate] at hq
  | cons fastest rest =>
    have hfast : fromSortedAddr fastest port = fromSortedAddr fastest port := rfl
    simp only [selectSlate] at hq
    rcases List.mem_cons.mp hq with rfl | hq1
    · exact ⟨fastest, List.mem_cons_self _ _, rfl⟩
    rcases List.mem_cons.mp hq1 with rfl | hq2
    · cases rest with
      | nil => exact ⟨fastest, List.mem_cons_self _ _, rfl⟩
      | cons second rest' =>
        exact ⟨second, List.mem_cons_of_mem _ (List.mem_cons_self _ _), rfl⟩
    rcases List.mem_cons.mp hq2 with rfl | hq3
    · rcases hfind : (fastest :: rest).find?
          (fun a => !a.has_been_used
            && !hasSelected [fromSortedAddr fastest port,
                match rest with
                | second :: _ => fromSortedAddr second port
                | [] => fromSortedAddr fastest port] a) with _ | a
      · rw [hfind]
        exact ⟨fastest, List.mem_cons_self _ _, rfl⟩
      · rw [hfind]
        exact ⟨a, List.mem_of_find?_eq_some hfind, rfl⟩
    · simp at hq3

theorem ensureFirstAddr_length {slate : List AddrDelay} {first : AddrDelay}
    (h : slate.length = 3) : (ensureFirstAddr slate first).length = 3 := by
  unfold ensureFirstAddr
  split_ifs
  · exact h
  · simp [List.length_dropLast, h]

theorem assignDelays_three (p0 p1 p2 : AddrDelay) :
    assignDelays [p0, p1, p2]
      = [AddrDelay.mk p0.addr 0,
         AddrDelay.mk p1.addr (clampDelay (mul32 p1.delay_time 1) 300 600),
         AddrDelay.mk p2.addr (clampDelay (mul32 p2.delay_time 2) 600 1200)] := by
  simp only [assignDelays, List.enum, List.enumFrom, List.map]
  norm_num

/-- C4: with racing enabled and a non-empty registry, the plan is the
delay-assignment of a 3-slot slate: slot 0 always gets delay 0 and slot
`i ∈ {1, 2}` gets `clamp(delay_time * i, 300 * i, 600 * i)` applied to
the slate entry's `delay_time` (every selected slate entry is
`from_sorted_addr` of a registry candidate, so its `delay_time` field is
that candidate's `delay_time()`); the returned plan always has length
exactly 3.  Scenario A: with exactly two never-attempted `HttpDNS`
candidates `A < B` (by raw IP) and preferred address `A:443`, the plan
is `[(A:443, 0), (B:443, 300), (A:443, 600)]`. -/
theorem C4_racing_plan (set : List SortedAddr) (f : SockAddr)
    (ipA ipB : Nat) (hset : set ≠ []) (hAB : ipA < ipB) :
    (∃ p0 p1 p2,
      ensureFirstAddr (selectSlate set f.port) (AddrDelay.mk f 0)
          = [p0, p1, p2]
      ∧ getSortedAddrs set true f
          = [AddrDelay.mk p0.addr 0,
             AddrDelay.mk p1.addr (clampDelay (mul32 p1.delay_time 1) 300 600),
             AddrDelay.mk p2.addr (clampDelay (mul32 p2.delay_time 2) 600 1200)]
      ∧ (getSortedAddrs set true f).length = 3)
    ∧ (∀ q ∈ selectSlate set f.port, ∃ c ∈ set, q = fromSortedAddr c f.port)
    ∧ getSortedAddrs
          [SortedAddr.mk ipA false .HttpDNS [], SortedAddr.mk ipB false .HttpDNS []]
          true (SockAddr.mk ipA 443)
        = [AddrDelay.mk (SockAddr.mk ipA 443) 0,
           AddrDelay.mk (SockAddr.mk ipB 443) 300,
           AddrDelay.mk (SockAddr.mk ipA 443) 600] := by
  refine ⟨?_, selectSlate_from_set, ?_⟩
  · have hlen : (ensureFirstAddr (selectSlate set f.port)
        (AddrDelay.mk f 0)).length = 3 :=
      ensureFirstAddr_length (selectSlate_length hset)
    obtain ⟨p0, p1, p2, hsplit⟩ := List.length_eq_three.mp hlen
    refine ⟨p0, p1, p2, hsplit, ?_, ?_⟩
    · have hne : ¬set.isEmpty = true := by
        cases set
        · exact absurd rfl hset
        · simp
      unfold getSortedAddrs
      simp only [Bool.not_true, if_false, hne, if_neg, Bool.false_eq_true]
      rw [hsplit, assignDelays_three]
    · have hne : ¬set.isEmpty = true := by
        cases set
        · exact absurd rfl hset
        · simp
      unfold getSortedAddrs
      simp only [Bool.not_true, if_false, hne, if_neg, Bool.false_eq_true]
      rw [hsplit, assignDelays_three]
      rfl
  · have hne : ipA ≠ ipB := Nat.ne_of_lt hAB
    have hne' : (ipB == ipA) = false := by
      simp [Ne.symm hne]
    simp only [getSortedAddrs, selectSlate, List.find?, hasSelected,
      fromSortedAddr, SortedAddr.has_been_used, SortedAddr.delay_time,
      ensureFirstAddr, List.isEmpty_cons, List.isEmpty_nil, Bool.not_true,
      Bool.not_false, List.any_cons, List.any_nil, beq_self_eq_true,
      Bool.or_false, Bool.or_true, Bool.and_false, Bool.and_true, hne',
      Bool.false_eq_true, if_false, if_true, ite_true, ite_false]
    rw [assignDelays_three]
    norm_num [clampDelay, mul32, wrap32]

/-- C4 witness: the theorem applied at the concrete Scenario A registry
(IPs 1 < 2, both untried `HttpDNS`), preferred address `1:443`. -/
theorem C4_racing_plan_witness :
    getSortedAddrs
        [SortedAddr.mk 1 false .HttpDNS [], SortedAddr.mk 2 false .HttpDNS []]
        true (SockAddr.mk 1 443)
      = [AddrDelay.mk (SockAddr.mk 1 443) 0,
         AddrDelay.mk (SockAddr.mk 2 443) 300,
         AddrDelay.mk (SockAddr.mk 1 443) 600] :=
  (C4_racing_plan
      [SortedAddr.mk 1 false .HttpDNS [], SortedAddr.mk 2 false .HttpDNS []]
      (SockAddr.mk 1 443) 1 2 (by decide) (by decide)).2.2

theorem isPrefixOf_eq_of_length {p q l : List Nat}
    (hp : p.isPrefixOf l = true) (hq : q.isPrefixOf l = true)
    (hl : p.length = q.length) : p = q := by
  have hp' := List.isPrefixOf_iff_prefix.mp hp
  have hq' := List.isPrefixOf_iff_prefix.mp hq
  exact (List.prefix_of_prefix_length_le hp' hq' (le_of_eq hl)).eq_of_length hl

/-- C5: one `Reading`-state poll iteration succeeds (yielding the
underlying stream) exactly when bytes were read, the accumulated
response exceeds 12 bytes, starts with `HTTP/1.1 200` or `HTTP/1.0 200`
and ends with `\r\n\r\n`; a zero-byte read always fails with
unexpected-EOF; at least 13 bytes starting `HTTP/1.1 407` fail with
proxy-authentication-required; at least 13 bytes with any other prefix
fail with the generic unsuccessful-tunnel error; otherwise polling
continues. -/
theorem C5_tunnel_read_classification (buf : List Nat) (n : Nat) :
    (readPoll buf n = .success ↔
      n ≠ 0 ∧ 12 < buf.length ∧
        ((asciiBytes "HTTP/1.1 200").isPrefixOf buf = true ∨
          (asciiBytes "HTTP/1.0 200").isPrefixOf buf = true) ∧
        (asciiBytes "\r\n\r\n").isSuffixOf buf = true)
    ∧ (n = 0 → readPoll buf n = .eof)
    ∧ (n ≠ 0 → 13 ≤ buf.length →
        (asciiBytes "HTTP/1.1 407").isPrefixOf buf = true →
        readPoll buf n = .authRequired)
    ∧ (n ≠ 0 → 13 ≤ buf.length →
        ¬((asciiBytes "HTTP/1.1 200").isPrefixOf buf = true ∨
          (asciiBytes "HTTP/1.0 200").isPrefixOf buf = true) →
        ¬(asciiBytes "HTTP/1.1 407").isPrefixOf buf = true →
        readPoll buf n = .unsuccessful)
    ∧ (n ≠ 0 → buf.length ≤ 12 → readPoll buf n = .pending)
    ∧ (n ≠ 0 → 12 < buf.length →
        ((asciiBytes "HTTP/1.1 200").isPrefixOf buf = true ∨
          (asciiBytes "HTTP/1.0 200").isPrefixOf buf = true) →
        ¬(asciiBytes "\r\n\r\n").isSuffixOf buf = true →
        readPoll buf n = .pending) := by
  refine ⟨⟨?_, ?_⟩, ?_, ?_, ?_, ?_, ?_⟩
  · intro h
    unfold readPoll at h
    split_ifs at h with h1 h2 h3 h4 h5 <;> simp_all
  · rintro ⟨hn, hlen, hpref, hsuf⟩
    have hor : ((asciiBytes "HTTP/1.1 200").isPrefixOf buf
        || (asciiBytes "HTTP/1.0 200").isPrefixOf buf) = true := by
      rcases hpref with h | h <;> simp [h]
    unfold readPoll
    rw [if_neg hn, if_pos hlen, if_pos hor, if_pos hsuf]
  · intro hn
    unfold readPoll
    rw [if_pos hn]
  · intro hn hlen h407
    have hlen' : 12 < buf.length := hlen
    have h200a : (asciiBytes "HTTP/1.1 200").isPrefixOf buf = false := by
      by_contra hc
      rw [Bool.not_eq_false] at hc
      have := isPrefixOf_eq_of_length hc h407 (by decide)
      exact absurd this (by decide)
    have h200b : (asciiBytes "HTTP/1.0 200").isPrefixOf buf = false := by
      by_contra hc
      rw [Bool.not_eq_false] at hc
      have := isPrefixOf_eq_of_length hc h407 (by decide)
      exact absurd this (by decide)
    unfold readPoll
    rw [if_neg hn, if_pos hlen']
    rw [h200a, h200b]
    simp only [Bool.or_false, Bool.false_eq_true, if_false]
    rw [if_pos h407]
  · intro hn hlen h200 h407
    have hor : ((asciiBytes "HTTP/1.1 200").isPrefixOf buf
        || (asciiBytes "HTTP/1.0 200").isPrefixOf buf) = false := by
      rcases h1 : (asciiBytes "HTTP/1.1 200").isPrefixOf buf with _ | _
      · rcases h2 : (asciiBytes "HTTP/1.0 200").isPrefixOf buf with _ | _
        · rfl
        · exact absurd (.inr h2) h200
      · exact absurd (.inl h1) h200
    unfold readPoll
    rw [if_neg hn, if_pos (show 12 < buf.length from hlen)]
    rw [hor]
    simp only [Bool.false_eq_true, if_false]
    rw [if_neg (by simp [h407])]
  · intro hn hlen
    unfold readPoll
    rw [if_neg hn, if_neg (by omega)]
  · intro hn hlen hpref hsuf
    have hor : ((asciiBytes "HTTP/1.1 200").isPrefixOf buf
        || (asciiBytes "HTTP/1.0 200").isPrefixOf buf) = true := by
      rcases hpref with h | h <;> simp [h]
    unfold readPoll
    rw [if_neg hn, if_pos hlen, if_pos hor, if_neg hsuf]

/-- C5 witness: the classification applied to Scenario E's accepted
response `"HTTP/1.1 200 Connection established\r\n\r\n"` read in one
39-byte chunk. -/
theorem C5_tunnel_read_classification_witness :
    readPoll (asciiBytes "HTTP/1.1 200 Connection established\r\n\r\n") 39
      = .success :=
  (C5_tunnel_read_classification
      (asciiBytes "HTTP/1.1 200 Connection established\r\n\r\n") 39).1.mpr
    (by refine ⟨by decide, by decide, .inl (by decide), by decide⟩)

/-- C6: the tunnel constructor's write buffer is exactly the bytes of
`"CONNECT {host}:{port} HTTP/1.1\r\nHost: {host}:{port}\r\n\r\n"` (host
and port substituted twice) and the state machine starts in `Writing`.
(The buffer is UTF-8; equality of the character sequences is equality of
the byte buffers.) -/
theorem C6_tunnel_request (host : String) (port : Nat) :
    (tunnelMk host port).buf
        = ("CONNECT " ++ host ++ ":" ++ toString port ++ " HTTP/1.1\r\nHost: "
            ++ host ++ ":" ++ toString port ++ "\r\n\r\n").data
    ∧ (tunnelMk host port).state = .Writing := by
  refine ⟨?_, rfl⟩
  have h2 : ("\r\n\r\n" : String) = "\r\n" ++ "\r\n" := by decide
  conv_rhs => rw [h2]
  show (("CONNECT " ++ host ++ ":" ++ toString port ++ " HTTP/1.1\r\nHost: "
      ++ host ++ ":" ++ toString port ++ "\r\n").data ++ ("\r\n").data) = _
  simp [String.data_append, List.append_assoc]

/-- C8: the URL hint parser returns `some` exactly on a fragment carrying
the fixed marker whose colon-delimited field 1 parses as IPv4, with port
80 for scheme `ws` and 443 otherwise, and `none` on a missing fragment,
a missing marker, or an unparsable field; concretely, fragment
`430BB5C318_ip:1.2.3.4:tag` yields `1.2.3.4:80` under scheme `ws`,
`1.2.3.4:443` under `wss`, and a fragment without the marker yields
`none`. -/
theorem C8_url_hint (u : UrlView) :
    (∀ frag ip a, u.fragment = some frag →
      ipFragTag.isPrefixOf frag.data = true →
      (splitChar ':' frag.data)[1]? = some ip →
      parseIpv4 ip = some a →
      getAddrsByUrl u
        = some (SockAddr.mk a (if u.scheme = "ws" then 80 else 443)))
    ∧ (u.fragment = none → getAddrsByUrl u = none)
    ∧ (∀ frag, u.fragment = some frag →
        ipFragTag.isPrefixOf frag.data = false → getAddrsByUrl u = none)
    ∧ (∀ frag ip, u.fragment = some frag →
        (splitChar ':' frag.data)[1]? = some ip → parseIpv4 ip = none →
        getAddrsByUrl u = none)
    ∧ getAddrsByUrl (UrlView.mk "ws" (some "430BB5C318_ip:1.2.3.4:tag"))
        = some (SockAddr.mk 16909060 80)
    ∧ getAddrsByUrl (UrlView.mk "wss" (some "430BB5C318_ip:1.2.3.4:tag"))
        = some (SockAddr.mk 16909060 443)
    ∧ getAddrsByUrl (UrlView.mk "ws" (some "1.2.3.4:tag")) = none := by
  refine ⟨?_, ?_, ?_, ?_, by decide, by decide, by decide⟩
  · intro frag ip a hfrag hmark hfield hparse
    unfold getAddrsByUrl
    rw [hfrag]
    simp only [hmark, Bool.not_true, Bool.false_eq_true, if_false, hfield]
    unfold getAddrByIp
    rw [hparse]
  · intro h
    unfold getAddrsByUrl
    rw [h]
  · intro frag hfrag hmark
    unfold getAddrsByUrl
    rw [hfrag]
    simp [hmark]
  · intro frag ip hfrag hfield hparse
    unfold getAddrsByUrl
    rw [hfrag]
    by_cases hmark : ipFragTag.isPrefixOf frag.data = true
    · simp only [hmark, Bool.not_true, Bool.false_eq_true, if_false, hfield]
      unfold getAddrByIp
      rw [hparse]
    · have hm : ipFragTag.isPrefixOf frag.data = false :=
        Bool.not_eq_true _ ▸ eq_false_of_ne_true hmark
      simp [hm]

/-- C8 witness: the parser applied to the `ws` Scenario D URL. -/
theorem C8_url_hint_witness :
    getAddrsByUrl (UrlView.mk "ws" (some "430BB5C318_ip:1.2.3.4:tag"))
      = some (SockAddr.mk 16909060
          (if (UrlView.mk "ws"
              (some "430BB5C318_ip:1.2.3.4:tag")).scheme = "ws"
            then 80 else 443)) :=
  (C8_url_hint (UrlView.mk "ws" (some "430BB5C318_ip:1.2.3.4:tag"))).1
    "430BB5C318_ip:1.2.3.4:tag" "1.2.3.4".data 16909060 rfl (by decide)
    (by decide) (by decide)

/-- C9: `set_custom_addr` stores the parsed IPv4 with fixed port 443 and
silently leaves the store unchanged on malformed input; after a
successful set the getter returns the stored address, and after a
remove it returns `none`. -/
theorem C9_custom_addr (store : CustomStore) (domain : String)
    (txt : String) (ip : Nat) :
    (parseIpv4 txt.data = some ip →
      setCustomAddr store domain txt
        = fun d => if d = domain then some (SockAddr.mk ip 443) else store d)
    ∧ (parseIpv4 txt.data = some ip →
        tryGetCustomAddr (setCustomAddr store domain txt) domain
          = some (SockAddr.mk ip 443))
    ∧ (parseIpv4 txt.data = none → setCustomAddr store domain txt = store)
    ∧ tryGetCustomAddr (removeCustomAddr store domain) domain = none := by
  refine ⟨?_, ?_, ?_, ?_⟩
  · intro h
    unfold setCustomAddr
    rw [h]
  · intro h
    unfold tryGetCustomAddr setCustomAddr
    rw [h]
    simp
  · intro h
    unfold setCustomAddr
    rw [h]
  · unfold tryGetCustomAddr removeCustomAddr
    simp

/-- C9 witness: Scenario C with `93.184.216.34` stored for `x.com` into
the empty store and read back. -/
theorem C9_custom_addr_witness :
    tryGetCustomAddr
        (setCustomAddr (fun _ => none) "x.com" "93.184.216.34") "x.com"
      = some (SockAddr.mk 1572395042 443) :=
  (C9_custom_addr (fun _ => none) "x.com" "93.184.216.34" 1572395042).2.1
    (by decide)
